import Mathlib

/-! Symbol encoder, publish protocol and tuple views of the actor framework.

A shallow embedding of

* `libcaf_core/caf/detail/atom_val.hpp` (`encode`, `next_interim`, `atom_val`),
* `libcaf_io/src/publish.cpp` (`publish_impl`),
* `cppa/tuple_view.hpp` (`tuple_view`),

followed by the properties established about them.

A C++ `char` is represented by its integer value (an `Int`, so that both a
signed and an unsigned `char` are covered), a `uint64_t` by a natural number
that every operation reduces modulo `2 ^ 64`.
-/

namespace caf
namespace detail

/-- The header comment "encoding table from ASCII to 6bit encoding for atoms"
(`atom_val.hpp`, lines 28-37), transcribed row by row. -/
def encoding_table : List Nat :=
  [ 0,  0,  0,  0,  0,  0,  0,  0,  0,  0,  0,  0,  0,  0,  0,  0,
    0,  0,  0,  0,  0,  0,  0,  0,  0,  0,  0,  0,  0,  0,  0,  0,
    0,  0,  0,  0,  0,  0,  0,  0,  0,  0,  0,  0,  0,  0,  0,  0,
    1,  2,  3,  4,  5,  6,  7,  8,  9,  10, 0,  0,  0,  0,  0,  0,
    0, 11, 12, 13, 14, 15, 16, 17, 18, 19, 20, 21, 22, 23, 24, 25,
   26, 27, 28, 29, 30, 31, 32, 33, 34, 35, 36,  0,  0,  0,  0, 37,
    0, 38, 39, 40, 41, 42, 43, 44, 45, 46, 47, 48, 49, 50, 51, 52,
   53, 54, 55, 56, 57, 58, 59, 60, 61, 62, 63,  0,  0,  0,  0,  0]

/-- The array `decoding_table` ("decodes 6bit characters to ASCII"): the
characters of `" 0123456789" "ABCDEFGHIJKLMNOPQRSTUVWXYZ_"
"abcdefghijklmnopqrstuvwxyz"` as integer values, without the terminator. -/
def decoding_table : List Int :=
  [32, 48, 49, 50, 51, 52, 53, 54, 55, 56, 57,
   65, 66, 67, 68, 69, 70, 71, 72, 73, 74, 75, 76, 77, 78, 79, 80, 81, 82, 83,
   84, 85, 86, 87, 88, 89, 90, 95,
   97, 98, 99, 100, 101, 102, 103, 104, 105, 106, 107, 108, 109, 110, 111, 112,
   113, 114, 115, 116, 117, 118, 119, 120, 121, 122]

/-- Width of `uint64_t`. -/
def uint64_size : Nat := 2 ^ 64

/-- `constexpr uint64_t encode(char c)`: the nested conditional of the source,
with `'0' = 48`, `'9' = 57`, `'A' = 65`, `'Z' = 90`, `'_' = 95`, `'a' = 97`,
`'z' = 122`. The arithmetic is done on `int` and the (non-negative) result is
converted to `uint64_t`. -/
def encode (c : Int) : Nat :=
  if 48 ≤ c ∧ c ≤ 57 then (c - 48 + 1).toNat % uint64_size
  else if 65 ≤ c ∧ c ≤ 90 then (c - 65 + 11).toNat % uint64_size
  else if c = 95 then 37
  else if 97 ≤ c ∧ c ≤ 122 then (c - 97 + 38).toNat % uint64_size
  else 0

/-- `constexpr uint64_t next_interim(uint64_t current, char c)`:
`(current << 6) | encode(c)` on 64-bit unsigned integers. -/
def next_interim (current : Nat) (c : Int) : Nat :=
  ((current <<< 6) % uint64_size) ||| encode c

/-- `constexpr uint64_t atom_val(const char* cstr, uint64_t interim = 0)`.
The C string is the list of characters in front of the terminator; the end of
the list plays the part of the terminating `'\0'`, and a `0` inside the list
ends the string like any `'\0'` does. -/
def atom_val : List Int → Nat → Nat
  | [], interim => interim
  | c :: cstr, interim =>
    if c = 0 then interim else atom_val cstr (next_interim interim c)

/-- The call `atom_val(cstr)` with the default argument `interim = 0`. -/
def atom_val_default (cstr : List Int) : Nat := atom_val cstr 0

/-- The characters of an ASCII string literal as C `char` values. -/
def c_str (s : String) : List Int := s.toList.map (fun ch => Int.ofNat ch.toNat)

/-- A text without `'\0'`. -/
def nul_free (text : List Int) : Prop := ∀ c ∈ text, c ≠ 0

instance (text : List Int) : Decidable (nul_free text) := by
  unfold nul_free; infer_instance

/-- The valid alphabet `[0-9A-Z_a-z]`. -/
def valid_char (c : Int) : Prop :=
  (48 ≤ c ∧ c ≤ 57) ∨ (65 ≤ c ∧ c ≤ 90) ∨ c = 95 ∨ (97 ≤ c ∧ c ≤ 122)

instance (c : Int) : Decidable (valid_char c) := by
  unfold valid_char; infer_instance

/-- The left fold of the specification: start from `interim` and replace
`acc` by `((acc << 6) mod 2^64) | encode(c)` for each character in order. -/
def fold_spec (text : List Int) (interim : Nat) : Nat :=
  text.foldl (fun acc c => ((acc <<< 6) % 2 ^ 64) ||| encode c) interim

/-- The base-64 number whose digits are the codes of the characters of `text`,
most significant first, computed without any wrap-around. -/
def digits_value : List Int → Nat
  | [] => 0
  | c :: cs => encode c * 64 ^ cs.length + digits_value cs

end detail
end caf

/-! ## `publish.cpp` -/

namespace caf
namespace io

/-- An element of a type-erased message: the element types that occur in the
publish exchange. A `uint16_t` element carries its value as a natural number. -/
inductive message_element where
  | atom_value (value : Nat)
  | uint16_t (value : Nat)
  | string (value : String)
  | bool (value : Bool)
  | actor_addr (value : Nat)
  deriving DecidableEq

/-- A message: a tuple of erased elements. -/
abbrev message := List message_element

/-- A `uint16_t` element holds a value below `2 ^ 16`. -/
def message_element.well_formed : message_element → Prop
  | .uint16_t value => value < 2 ^ 16
  | _ => True

instance (e : message_element) : Decidable e.well_formed := by
  cases e <;> unfold message_element.well_formed <;> infer_instance

/-- Every `uint16_t` element of the message is below `2 ^ 16`. -/
def message_well_formed (m : message) : Prop := ∀ e ∈ m, e.well_formed

instance (m : message) : Decidable (message_well_formed m) := by
  unfold message_well_formed; infer_instance

/-- Modelled from the spec: the tag type `ok_atom` (declared in `caf/atom.hpp`,
which is not part of the sources) is the symbol of the text "ok" produced by
the symbol encoder. -/
def ok_atom : Nat := detail.atom_val_default (detail.c_str "ok")

/-- Modelled from the spec: the tag type `error_atom`, the symbol of "error". -/
def error_atom : Nat := detail.atom_val_default (detail.c_str "error")

/-- Modelled from the spec: the tag type `put_atom`, the symbol of "put". -/
def put_atom : Nat := detail.atom_val_default (detail.c_str "put")

/-- The part of `abstract_actor` that `publish_impl` uses: `whom->address()`. -/
structure abstract_actor where
  address : Nat
  deriving DecidableEq

/-- How a call of `publish_impl` ends. `returned result` is `return result;`,
`network_error what` is `throw network_error(std::move(msg))`.
Modelled from the spec: when neither handler matches the reply ("No third
branch is defined; an unrecognized reply shape is a protocol violation"), the
call ends in `protocol_violation`; what `await` does then is decided outside
`publish.cpp`. -/
inductive publish_outcome where
  | returned (result : Nat)
  | network_error (what : String)
  | protocol_violation
  deriving DecidableEq

/-- A run of `publish_impl`: the requests sent to the coordinator, in order,
and how the call ended. -/
structure publish_run where
  sent : List message
  outcome : publish_outcome
  deriving DecidableEq

/-- The local `std::string str; if (in != nullptr) str = in;`. -/
def bind_string (in_ : Option String) : String :=
  match in_ with
  | some text => text
  | none => ""

/-- The request of `publish_impl`: the arguments of `sync_send` after `mm`,
`put_atom{}, whom->address(), port, str, reuse_addr`. -/
def publish_request (whom : abstract_actor) (port : Nat) (in_ : Option String)
    (reuse_addr : Bool) : message :=
  [.atom_value put_atom, .actor_addr whom.address, .uint16_t port,
   .string (bind_string in_), .bool reuse_addr]

/-- `uint16_t publish_impl(abstract_actor_ptr whom, uint16_t port,
const char* in, bool reuse_addr)`. The coordinator `mm` is given by the reply
it sends to a request; `in_` is `none` for a null pointer. The two cases of
the match are the two handlers passed to `await`, tried in order. -/
def publish_impl (mm : message → message) (whom : abstract_actor) (port : Nat)
    (in_ : Option String) (reuse_addr : Bool) : publish_run :=
  let request := publish_request whom port in_ reuse_addr
  { sent := [request]
    outcome :=
      match mm request with
      | [.atom_value tag, .uint16_t res] =>
        if tag = ok_atom then .returned res else .protocol_violation
      | [.atom_value tag, .string msg] =>
        if tag = error_atom then .network_error msg else .protocol_violation
      | _ => .protocol_violation }

end io
end caf

/-! ## `tuple_view.hpp` -/

namespace cppa

/-- Modelled from the spec: the erased tuple store `detail::abstract_tuple`
(its header is not part of the sources): "owns a sequence of `size` opaque
element slots". The slots hold erased values of type `α`. -/
structure abstract_tuple (α : Type) where
  slots : List α

/-- Modelled from the spec: `size()` of the store, the number of slots. -/
def abstract_tuple.size {α : Type} (t : abstract_tuple α) : Nat := t.slots.length

/-- Modelled from the spec: `at(i)` "returns an immutable reference to slot i;
fails (contract violation, fatal) if i ≥ size". -/
def abstract_tuple.at {α : Type} (t : abstract_tuple α) (i : Nat) : Option α :=
  if i < t.size then t.slots[i]? else none

/-- Modelled from the spec: `detail::decorated_tuple<ElementTypes...>`
(`cppa/detail/decorated_tuple.hpp` is not part of the sources), the object a
`tuple_view` points to: "(a) a shared handle to an Erased Tuple Store, (b) an
index mapping of length n". -/
structure decorated_tuple (α : Type) where
  m_decorated : abstract_tuple α
  m_mappings : List Nat

/-- Modelled from the spec: construction "validates `mapping.size() == n` and
every entry in range; otherwise construction fails (contract violation)". -/
def decorated_tuple.construct {α : Type} (n : Nat) (vals : abstract_tuple α)
    (mappings : List Nat) : Option (decorated_tuple α) :=
  if mappings.length = n ∧ ∀ i ∈ mappings, i < vals.size then
    some { m_decorated := vals, m_mappings := mappings }
  else none

/-- Modelled from the spec: logical position `pos` projects to
`store.at(mapping[pos])`. -/
def decorated_tuple.at {α : Type} (d : decorated_tuple α) (pos : Nat) : Option α :=
  match d.m_mappings[pos]? with
  | some i => d.m_decorated.at i
  | none => none

/-- Modelled from the spec: "`size()`: delegates to the underlying store". -/
def decorated_tuple.size {α : Type} (d : decorated_tuple α) : Nat := d.m_decorated.size

/-- `template<typename... ElementTypes> class tuple_view` with `n` element
types. The member `m_vals` points to the decorated tuple made by the
constructor; `static_assert(element_types::type_list_size > 0, ...)` is the
field `size_pos`. -/
structure tuple_view (α : Type) (n : Nat) where
  m_vals : decorated_tuple α
  size_pos : 0 < n

/-- `tuple_view(const vals_t& vals, std::vector<std::size_t>&& mappings)
: m_vals(new detail::decorated_tuple<ElementTypes...>(vals, mappings))`. -/
def tuple_view.construct {α : Type} (n : Nat) (hn : 0 < n) (vals : abstract_tuple α)
    (mappings : List Nat) : Option (tuple_view α n) :=
  (decorated_tuple.construct n vals mappings).map
    (fun d => { m_vals := d, size_pos := hn })

/-- `get<N>()`: `static_assert(N < element_types::type_list_size, ...)` is the
type of `N`; the result is `m_vals->at(N)` (the reinterpretation to the static
type does not change the erased value). -/
def tuple_view.get {α : Type} {n : Nat} (v : tuple_view α n) (N : Fin n) : Option α :=
  v.m_vals.at N.val

/-- `std::size_t size() const { return m_vals->size(); }`. -/
def tuple_view.size {α : Type} {n : Nat} (v : tuple_view α n) : Nat := v.m_vals.size

/-- Modelled from the spec: `cppa::tuple<Types...>` (`cppa/tuple.hpp` is not
part of the sources), a tuple authored from values; it owns an erased store. -/
structure tuple (α : Type) where
  m_vals : abstract_tuple α

/-- Modelled from the spec: `util::compare_tuples` (`cppa/util/compare_tuples.hpp`
is not part of the sources): "not-equal if sizes differ; otherwise equal iff
each corresponding element compares equal under its own runtime value
semantics". Each operand is given by its `size()` and its element access;
`cmp` compares an element of the left operand with one of the right. -/
def compare_tuples {α β : Type} (cmp : α → β → Bool)
    (lhs_size : Nat) (lhs_at : Nat → Option α)
    (rhs_size : Nat) (rhs_at : Nat → Option β) : Bool :=
  if lhs_size ≠ rhs_size then false
  else (List.range lhs_size).all (fun i =>
    match lhs_at i, rhs_at i with
    | some a, some b => cmp a b
    | none, none => true
    | _, _ => false)

/-- `operator==(const tuple_view<LhsTypes...>&, const tuple_view<RhsTypes...>&)`:
`util::compare_tuples(lhs, rhs)`. -/
def operator_eq_view_view {α β : Type} {n m : Nat} (cmp : α → β → Bool)
    (lhs : tuple_view α n) (rhs : tuple_view β m) : Bool :=
  compare_tuples cmp lhs.size lhs.m_vals.at rhs.size rhs.m_vals.at

/-- `operator==(const tuple<LhsTypes...>&, const tuple_view<RhsTypes...>&)`. -/
def operator_eq_tuple_view {α β : Type} {m : Nat} (cmp : α → β → Bool)
    (lhs : tuple α) (rhs : tuple_view β m) : Bool :=
  compare_tuples cmp lhs.m_vals.size lhs.m_vals.at rhs.size rhs.m_vals.at

/-- `operator==(const tuple_view<LhsTypes...>&, const tuple<RhsTypes...>&)`. -/
def operator_eq_view_tuple {α β : Type} {n : Nat} (cmp : α → β → Bool)
    (lhs : tuple_view α n) (rhs : tuple β) : Bool :=
  compare_tuples cmp lhs.size lhs.m_vals.at rhs.m_vals.size rhs.m_vals.at

/-- `operator!=(const tuple_view<LhsTypes...>&, const tuple_view<RhsTypes...>&)`:
`!(lhs == rhs)`. -/
def operator_ne_view_view {α β : Type} {n m : Nat} (cmp : α → β → Bool)
    (lhs : tuple_view α n) (rhs : tuple_view β m) : Bool :=
  !(operator_eq_view_view cmp lhs rhs)

/-- `operator!=(const tuple<LhsTypes...>&, const tuple_view<RhsTypes...>&)`:
`!(lhs == rhs)`. -/
def operator_ne_tuple_view {α β : Type} {m : Nat} (cmp : α → β → Bool)
    (lhs : tuple α) (rhs : tuple_view β m) : Bool :=
  !(operator_eq_tuple_view cmp lhs rhs)

/-- `operator!=(const tuple_view<LhsTypes...>&, const tuple<RhsTypes...>&)`:
`!(lhs == rhs)`. -/
def operator_ne_view_tuple {α β : Type} {n : Nat} (cmp : α → β → Bool)
    (lhs : tuple_view α n) (rhs : tuple β) : Bool :=
  !(operator_eq_view_tuple cmp lhs rhs)

/-- Modelled from the spec: an assignment through the reference that
`mutable_at(i)` returns: slot `i` of the store is overwritten in place, under
the "same bounds contract" as `at(i)`. -/
def abstract_tuple.mutable_at_assign {α : Type} (t : abstract_tuple α) (i : Nat)
    (x : α) : Option (abstract_tuple α) :=
  if i < t.size then some { slots := t.slots.set i x } else none

/-- Modelled from the spec: `mutable_at(pos)` of the decorated tuple reaches
the slot `mapping[pos]` of the store, like `at(pos)` does. -/
def decorated_tuple.mutable_at_assign {α : Type} (d : decorated_tuple α) (pos : Nat)
    (x : α) : Option (decorated_tuple α) :=
  match d.m_mappings[pos]? with
  | some i => (d.m_decorated.mutable_at_assign i x).map
      (fun t => { m_decorated := t, m_mappings := d.m_mappings })
  | none => none

/-- `get_ref<N>()` followed by an assignment of `x` to the reference it
returns: the reference is `m_vals->mutable_at(N)`. -/
def tuple_view.get_ref_assign {α : Type} {n : Nat} (v : tuple_view α n) (N : Fin n)
    (x : α) : Option (tuple_view α n) :=
  (v.m_vals.mutable_at_assign N.val x).map
    (fun d => { m_vals := d, size_pos := v.size_pos })

/-- Modelled from the spec: the erased tuple stores alive at one moment. A
handle to a store ("Sharing: acquiring a second handle to the same store is a
cheap reference-count increment") is its index in `stores`. -/
structure store_heap (α : Type) where
  stores : List (abstract_tuple α)

/-- A `tuple_view` with `n` element types whose store is shared: "(a) a shared
handle to an Erased Tuple Store, (b) an index mapping". The copy constructor
`tuple_view(const tuple_view&) = default` copies the handle, so a copy is the
same value. -/
structure shared_view (n : Nat) where
  vals : Nat
  mappings : List Nat
  size_pos : 0 < n

/-- The copy constructor `tuple_view(const tuple_view&) = default`: the copy
holds the same handle and the same mapping. -/
def shared_view.copy {n : Nat} (v : shared_view n) : shared_view n :=
  { vals := v.vals, mappings := v.mappings, size_pos := v.size_pos }

/-- The view that a shared view is in a given heap: the `tuple_view`
constructed from the store under its handle and from its mapping. -/
def shared_view.deref {α : Type} {n : Nat} (h : store_heap α) (v : shared_view n) :
    Option (tuple_view α n) :=
  match h.stores[v.vals]? with
  | some t => tuple_view.construct n v.size_pos t v.mappings
  | none => none

/-- `get<N>()` of a shared view in the heap `h`. -/
def shared_view.get {α : Type} {n : Nat} (h : store_heap α) (v : shared_view n)
    (N : Fin n) : Option α :=
  (v.deref h).bind (fun view => view.get N)

/-- `get_ref<N>() = x` of a shared view in the heap `h`.
Modelled from the spec: "Mutation through `mutable_at` is visible to every
other holder of the same store — there is no automatic copy-before-write": the
written store takes the place of the old one under the same handle, and no
store is added to the heap. -/
def shared_view.get_ref_assign {α : Type} {n : Nat} (h : store_heap α)
    (v : shared_view n) (N : Fin n) (x : α) : Option (store_heap α) :=
  (v.deref h).bind (fun view =>
    (view.get_ref_assign N x).map (fun written =>
      { stores := h.stores.set v.vals written.m_vals.m_decorated }))

end cppa

/-! ## Auxiliary facts about the encoder -/

namespace caf
namespace detail

theorem encode_lt (c : Int) : encode c < 64 := by
  unfold encode uint64_size
  split_ifs <;> omega

theorem encode_pos_of_valid {c : Int} (h : valid_char c) : 0 < encode c := by
  unfold valid_char at h
  unfold encode uint64_size
  split_ifs <;> omega

theorem encode_inj_of_valid {c d : Int} (hd : valid_char d)
    (h : encode c = encode d) : c = d := by
  unfold valid_char at hd
  unfold encode uint64_size at h
  split_ifs at h <;> omega

theorem encode_eq_zero_of_not_valid {c : Int} (h : ¬ valid_char c) : encode c = 0 := by
  unfold valid_char at h
  unfold encode
  split_ifs <;> first | rfl | omega

theorem valid_char_ne_zero {c : Int} (h : valid_char c) : c ≠ 0 := by
  unfold valid_char at h
  omega

theorem next_interim_eq (current : Nat) (c : Int) :
    next_interim current c = (current * 64 + encode c) % 2 ^ 64 := by
  have he := encode_lt c
  have hor : 2 ^ 6 * (current % 2 ^ 58) + encode c
      = 2 ^ 6 * (current % 2 ^ 58) ||| encode c :=
    Nat.mul_add_lt_is_or (by simpa using he) _
  have hshift : (current <<< 6) % uint64_size = 2 ^ 6 * (current % 2 ^ 58) := by
    rw [Nat.shiftLeft_eq]
    unfold uint64_size
    omega
  unfold next_interim
  rw [hshift, ← hor]
  omega

theorem next_interim_lt (current : Nat) (c : Int) : next_interim current c < 2 ^ 64 := by
  rw [next_interim_eq]
  exact Nat.mod_lt _ (by norm_num)

theorem digits_value_lt (text : List Int) : digits_value text < 64 ^ text.length := by
  induction text with
  | nil => simp [digits_value]
  | cons c cs ih =>
    have he := encode_lt c
    simp only [digits_value, List.length_cons, pow_succ]
    nlinarith [Nat.pos_pow_of_pos cs.length (by norm_num : 0 < 64)]

/-- Closed form of the recursion: on a text without `'\0'` the accumulator is
shifted by six bits per character and the codes are appended, modulo `2 ^ 64`. -/
theorem atom_val_closed_form (text : List Int) (h : nul_free text) (interim : Nat)
    (hi : interim < 2 ^ 64) :
    atom_val text interim = (interim * 64 ^ text.length + digits_value text) % 2 ^ 64 := by
  induction text generalizing interim with
  | nil =>
    simp only [atom_val, digits_value, List.length_nil, pow_zero, mul_one, add_zero]
    omega
  | cons c cs ih =>
    have hc : c ≠ 0 := h c (List.mem_cons_self _ _)
    have hcs : nul_free cs := fun d hd => h d (List.mem_cons_of_mem _ hd)
    simp only [atom_val, hc, if_false, digits_value, List.length_cons]
    rw [ih hcs _ (next_interim_lt _ _), next_interim_eq]
    rw [Nat.add_mod, Nat.mul_mod, Nat.mod_mod, ← Nat.mul_mod, ← Nat.add_mod]
    congr 1
    ring

theorem atom_val_lt (text : List Int) (interim : Nat) (hi : interim < 2 ^ 64) :
    atom_val text interim < 2 ^ 64 := by
  induction text generalizing interim with
  | nil => simpa [atom_val] using hi
  | cons c cs ih =>
    simp only [atom_val]
    split_ifs
    · exact hi
    · exact ih _ (next_interim_lt _ _)

theorem nul_free_append {p s : List Int} :
    nul_free (p ++ s) ↔ nul_free p ∧ nul_free s := by
  simp only [nul_free, List.mem_append]
  constructor
  · intro h
    exact ⟨fun c hc => h c (Or.inl hc), fun c hc => h c (Or.inr hc)⟩
  · rintro ⟨hp, hs⟩ c (hc | hc)
    · exact hp c hc
    · exact hs c hc

theorem atom_val_append (p s : List Int) (hp : nul_free p) (interim : Nat) :
    atom_val (p ++ s) interim = atom_val s (atom_val p interim) := by
  induction p generalizing interim with
  | nil => simp [atom_val]
  | cons c cs ih =>
    have hc : c ≠ 0 := hp c (List.mem_cons_self _ _)
    have hcs : nul_free cs := fun d hd => hp d (List.mem_cons_of_mem _ hd)
    simp only [List.cons_append, atom_val, hc, if_false]
    exact ih hcs _

/-- The value after a prefix `p` followed by `s`: the value after `p`, shifted
by six bits per character of `s`, plus the digits of `s`, modulo `2 ^ 64`. -/
theorem atom_val_split (p s : List Int) (hp : nul_free p) (hs : nul_free s) :
    atom_val_default (p ++ s)
      = (atom_val_default p * 64 ^ s.length + digits_value s) % 2 ^ 64 := by
  unfold atom_val_default
  rw [atom_val_append p s hp 0]
  exact atom_val_closed_form s hs _ (atom_val_lt p 0 (by norm_num))

theorem atom_val_default_eq_digits (text : List Int) (h : nul_free text) :
    atom_val_default text = digits_value text % 2 ^ 64 := by
  unfold atom_val_default
  rw [atom_val_closed_form text h 0 (by norm_num)]
  simp

theorem atom_val_default_short (text : List Int) (h : nul_free text)
    (hlen : text.length ≤ 10) : atom_val_default text = digits_value text := by
  rw [atom_val_default_eq_digits text h]
  apply Nat.mod_eq_of_lt
  calc digits_value text < 64 ^ text.length := digits_value_lt text
    _ ≤ 64 ^ 10 := Nat.pow_le_pow_right (by norm_num) hlen
    _ < 2 ^ 64 := by norm_num

theorem nul_free_of_valid {text : List Int} (h : ∀ c ∈ text, valid_char c) :
    nul_free text := fun c hc => valid_char_ne_zero (h c hc)

theorem digits_value_ge_of_valid (c : Int) (cs : List Int) (hc : valid_char c) :
    64 ^ cs.length ≤ digits_value (c :: cs) := by
  have := encode_pos_of_valid hc
  simp only [digits_value]
  nlinarith [Nat.pos_pow_of_pos cs.length (by norm_num : 0 < 64)]

theorem digits_value_length_eq (s t : List Int) (hs : ∀ c ∈ s, valid_char c)
    (ht : ∀ c ∈ t, valid_char c) (h : digits_value s = digits_value t) :
    s.length = t.length := by
  have key : ∀ a b : List Int, (∀ c ∈ b, valid_char c) →
      digits_value a = digits_value b → ¬ a.length < b.length := by
    intro a b hb hab hlt
    cases b with
    | nil => simp at hlt
    | cons d ds =>
      have h1 := digits_value_lt a
      have h2 := digits_value_ge_of_valid d ds (hb d (List.mem_cons_self _ _))
      have h3 : 64 ^ a.length ≤ 64 ^ ds.length :=
        Nat.pow_le_pow_right (by norm_num) (by simpa using Nat.lt_succ_iff.mp hlt)
      omega
  have h1 := key s t ht h
  have h2 := key t s hs h.symm
  omega

theorem digits_value_inj_of_length (s t : List Int) (hlen : s.length = t.length)
    (ht : ∀ c ∈ t, valid_char c) (h : digits_value s = digits_value t) : s = t := by
  induction s generalizing t with
  | nil =>
    cases t with
    | nil => rfl
    | cons d ds => simp at hlen
  | cons c cs ih =>
    cases t with
    | nil => simp at hlen
    | cons d ds =>
      have hl : cs.length = ds.length := by simpa using hlen
      simp only [digits_value, hl] at h
      have h1 := digits_value_lt cs
      have h2 := digits_value_lt ds
      rw [hl] at h1
      have hpos : 0 < 64 ^ ds.length := Nat.pos_pow_of_pos _ (by norm_num)
      have hq : encode c = encode d := by
        have e1 : (encode c * 64 ^ ds.length + digits_value cs) / 64 ^ ds.length = encode c := by
          rw [Nat.add_comm, Nat.add_mul_div_right _ _ hpos, Nat.div_eq_of_lt h1]; simp
        have e2 : (encode d * 64 ^ ds.length + digits_value ds) / 64 ^ ds.length = encode d := by
          rw [Nat.add_comm, Nat.add_mul_div_right _ _ hpos, Nat.div_eq_of_lt h2]; simp
        rw [← e1, ← e2, h]
      have hr : digits_value cs = digits_value ds := by
        rw [hq] at h
        exact Nat.add_left_cancel h
      have hcd : c = d := encode_inj_of_valid (ht d (List.mem_cons_self _ _)) hq
      rw [hcd, ih ds hl (fun x hx => ht x (List.mem_cons_of_mem _ hx)) hr]

end detail
end caf

/-! ## The symbol encoder: truncation, injectivity, character codes, fold -/

namespace caf
namespace detail

/-- C1 (as stated, refuted): the text "1abcdefghij" has no `'\0'` and 11
characters, yet its value differs from the value of its last 10 characters
"abcdefghij": the code of the leading '1' is 2, whose low bits land in bits
60..63 of the result. -/
theorem atom_val_truncation_counterexample :
    nul_free (c_str "1abcdefghij") ∧ 10 < (c_str "1abcdefghij").length ∧
    (c_str "1abcdefghij").drop ((c_str "1abcdefghij").length - 10) = c_str "abcdefghij" ∧
    atom_val_default (c_str "1abcdefghij") ≠ atom_val_default (c_str "abcdefghij") := by
  decide

/-- C1 (amended): for every text without `'\0'` that is longer than 10
characters, the low 60 bits of `atom_val(text)` are `atom_val` of the last 10
characters, and `atom_val(text)` equals `atom_val` of the last 11 characters:
only the last 11 characters influence the 64-bit result. -/
theorem atom_val_truncation (text : List Int) (h : nul_free text)
    (hlen : 10 < text.length) :
    atom_val_default text % 2 ^ 60
        = atom_val_default (text.drop (text.length - 10)) ∧
      atom_val_default text = atom_val_default (text.drop (text.length - 11)) := by
  have hsplit : ∀ k, k ≤ text.length →
      atom_val_default text
          = (atom_val_default (text.take (text.length - k)) * 64 ^ k
              + digits_value (text.drop (text.length - k))) % 2 ^ 64 ∧
        atom_val_default (text.drop (text.length - k))
          = digits_value (text.drop (text.length - k)) % 2 ^ 64 ∧
        digits_value (text.drop (text.length - k)) < 64 ^ k := by
    intro k hk
    have hnf : nul_free (text.take (text.length - k) ++ text.drop (text.length - k)) := by
      rw [List.take_append_drop]; exact h
    obtain ⟨hp, hs⟩ := nul_free_append.mp hnf
    have hl : (text.drop (text.length - k)).length = k := by
      rw [List.length_drop]; omega
    refine ⟨?_, atom_val_default_eq_digits _ hs, ?_⟩
    · have := atom_val_split _ _ hp hs
      rw [List.take_append_drop, hl] at this
      exact this
    · have := digits_value_lt (text.drop (text.length - k))
      rw [hl] at this
      exact this
  constructor
  · obtain ⟨h1, h2, h3⟩ := hsplit 10 (by omega)
    rw [h1, h2]
    norm_num at h3 ⊢
    omega
  · obtain ⟨h1, h2, _⟩ := hsplit 11 (by omega)
    rw [h1, h2]
    norm_num
    omega

/-- C1, witness: the amended law at the 11-character text "1abcdefghij". -/
theorem atom_val_truncation_witness :
    atom_val_default (c_str "1abcdefghij") % 2 ^ 60
        = atom_val_default ((c_str "1abcdefghij").drop ((c_str "1abcdefghij").length - 10)) ∧
      atom_val_default (c_str "1abcdefghij")
        = atom_val_default ((c_str "1abcdefghij").drop ((c_str "1abcdefghij").length - 11)) :=
  atom_val_truncation (c_str "1abcdefghij") (by decide) (by decide)

/-- C2: on texts of at most 10 characters, all from the alphabet
`[0-9A-Z_a-z]`, `atom_val` is injective (texts of different lengths
included). -/
theorem atom_val_injective (s t : List Int)
    (hs : ∀ c ∈ s, valid_char c) (ht : ∀ c ∈ t, valid_char c)
    (hls : s.length ≤ 10) (hlt : t.length ≤ 10)
    (h : atom_val_default s = atom_val_default t) : s = t := by
  rw [atom_val_default_short s (nul_free_of_valid hs) hls,
    atom_val_default_short t (nul_free_of_valid ht) hlt] at h
  exact digits_value_inj_of_length s t (digits_value_length_eq s t hs ht h) ht h

/-- C2, witness: injectivity applied to the text "ok" and to the list of the
character values of 'o' and 'k', which have the same value 3376. -/
theorem atom_val_injective_witness :
    atom_val_default (c_str "ok") = 3376 ∧ atom_val_default [111, 107] = 3376 ∧
      c_str "ok" = [111, 107] :=
  ⟨by decide, by decide,
    atom_val_injective (c_str "ok") [111, 107] (by decide) (by decide)
      (by decide) (by decide) (by decide)⟩

set_option maxRecDepth 8000 in
/-- C3: `encode(c)` is `c - '0' + 1` (1..10) on digits, `c - 'A' + 11`
(11..36) on upper-case letters, 37 on '_', `c - 'a' + 38` (38..63) on
lower-case letters and 0 on every other character; and it agrees entry by
entry with the 128-entry table of the header comment. -/
theorem encode_spec :
    (∀ c : Int,
      (48 ≤ c ∧ c ≤ 57 → (encode c : Int) = c - 48 + 1 ∧ 1 ≤ encode c ∧ encode c ≤ 10) ∧
      (65 ≤ c ∧ c ≤ 90 → (encode c : Int) = c - 65 + 11 ∧ 11 ≤ encode c ∧ encode c ≤ 36) ∧
      (c = 95 → encode c = 37) ∧
      (97 ≤ c ∧ c ≤ 122 → (encode c : Int) = c - 97 + 38 ∧ 38 ≤ encode c ∧ encode c ≤ 63) ∧
      (¬ valid_char c → encode c = 0)) ∧
    encoding_table.length = 128 ∧
    (∀ i : Fin 128, encoding_table[i.val]? = some (encode (Int.ofNat i.val))) := by
  refine ⟨fun c => ⟨?_, ?_, ?_, ?_, ?_⟩, by decide, by decide⟩
  · intro hc
    rw [encode, if_pos hc]
    unfold uint64_size
    omega
  · intro hc
    unfold encode uint64_size
    split_ifs <;> omega
  · intro hc
    subst hc
    rfl
  · intro hc
    unfold encode uint64_size
    split_ifs <;> omega
  · exact encode_eq_zero_of_not_valid

/-- C4: on a text without `'\0'` the recursive `atom_val(text, interim)` is
the left fold of `acc ↦ ((acc << 6) mod 2^64) | encode(c)` over the characters
in order, starting from `interim`; with the default argument it starts
from 0. -/
theorem atom_val_eq_fold (text : List Int) (h : nul_free text) (interim : Nat) :
    atom_val text interim = fold_spec text interim ∧
      atom_val_default text = fold_spec text 0 := by
  have key : ∀ (l : List Int), nul_free l → ∀ acc, atom_val l acc = fold_spec l acc := by
    intro l
    induction l with
    | nil => intro _ acc; rfl
    | cons c cs ih =>
      intro hl acc
      have hc : c ≠ 0 := hl c (List.mem_cons_self _ _)
      have hcs : nul_free cs := fun d hd => hl d (List.mem_cons_of_mem _ hd)
      simp only [atom_val, hc, if_false]
      rw [ih hcs]
      simp [fold_spec, next_interim, uint64_size]
  exact ⟨key text h interim, key text h 0⟩

/-- C4, witness: the fold law at the text "error" and the initial value 5. -/
theorem atom_val_eq_fold_witness :
    atom_val (c_str "error") 5 = fold_spec (c_str "error") 5 ∧
      atom_val_default (c_str "error") = fold_spec (c_str "error") 0 :=
  atom_val_eq_fold (c_str "error") (by decide) 5

end detail
end caf

/-! ## The publish protocol -/

namespace caf
namespace io

/-- C5: when the coordinator answers the request with the tuple `(ok, res)`,
`res` a 16-bit port, `publish_impl` returns exactly `res` (no fault is
raised). -/
theorem publish_impl_ok (mm : message → message) (whom : abstract_actor) (port : Nat)
    (in_ : Option String) (reuse_addr : Bool) (res : Nat) (hres : res < 2 ^ 16)
    (hreply : mm (publish_request whom port in_ reuse_addr)
      = [.atom_value ok_atom, .uint16_t res]) :
    (publish_impl mm whom port in_ reuse_addr).outcome = .returned res ∧
      res < 2 ^ 16 := by
  refine ⟨?_, hres⟩
  simp only [publish_impl, hreply]
  simp

/-- C5, witness (scenario A): request `{target, port = 0, reuse = false}`,
reply `(ok, 4321)`, the call returns 4321. -/
theorem publish_impl_ok_witness :
    (publish_impl (fun _ => [.atom_value ok_atom, .uint16_t 4321]) ⟨1⟩ 0 none false).outcome
        = .returned 4321 ∧ 4321 < 2 ^ 16 :=
  publish_impl_ok (fun _ => [.atom_value ok_atom, .uint16_t 4321]) ⟨1⟩ 0 none false 4321
    (by decide) rfl

/-- C6: when the coordinator answers the request with the tuple
`(error, msg)`, `publish_impl` returns no port and raises `network_error`
with the message `msg`, unchanged. -/
theorem publish_impl_error (mm : message → message) (whom : abstract_actor) (port : Nat)
    (in_ : Option String) (reuse_addr : Bool) (msg : String)
    (hreply : mm (publish_request whom port in_ reuse_addr)
      = [.atom_value error_atom, .string msg]) :
    (publish_impl mm whom port in_ reuse_addr).outcome = .network_error msg ∧
      ∀ p, (publish_impl mm whom port in_ reuse_addr).outcome ≠ .returned p := by
  have h : (publish_impl mm whom port in_ reuse_addr).outcome = .network_error msg := by
    simp only [publish_impl, hreply]
    simp
  refine ⟨h, fun p hp => ?_⟩
  rw [h] at hp
  cases hp

/-- C6, witness (scenario B): request `{target, port = 80, reuse = false}`,
reply `(error, "address already in use")`, the call raises a fault with that
message. -/
theorem publish_impl_error_witness :
    (publish_impl (fun _ => [.atom_value error_atom, .string "address already in use"])
        ⟨1⟩ 80 none false).outcome = .network_error "address already in use" ∧
      ∀ p, (publish_impl (fun _ => [.atom_value error_atom, .string "address already in use"])
        ⟨1⟩ 80 none false).outcome ≠ .returned p :=
  publish_impl_error (fun _ => [.atom_value error_atom, .string "address already in use"])
    ⟨1⟩ 80 none false "address already in use" rfl

/-- C9 (as stated, refuted): the coordinator's reply `(ok, 0)` is a
well-formed message, and `publish_impl` returns the port 0 for it. -/
theorem publish_impl_returns_zero :
    message_well_formed [.atom_value ok_atom, .uint16_t 0] ∧
      (publish_impl (fun _ => [.atom_value ok_atom, .uint16_t 0]) ⟨1⟩ 8080 none false).outcome
        = .returned 0 := by
  decide

/-- C9 (amended): whenever `publish_impl` returns a port value, the
coordinator's reply is the tuple `(ok, p)` with exactly that value, which is a
16-bit unsigned integer when the reply is well formed, and which is nonzero
exactly when the port of the reply is. -/
theorem publish_impl_returned (mm : message → message) (whom : abstract_actor)
    (port : Nat) (in_ : Option String) (reuse_addr : Bool) (p : Nat)
    (hwf : message_well_formed (mm (publish_request whom port in_ reuse_addr)))
    (h : (publish_impl mm whom port in_ reuse_addr).outcome = .returned p) :
    mm (publish_request whom port in_ reuse_addr) = [.atom_value ok_atom, .uint16_t p] ∧
      p < 2 ^ 16 := by
  have hreply : mm (publish_request whom port in_ reuse_addr)
      = [.atom_value ok_atom, .uint16_t p] := by
    simp only [publish_impl] at h
    split at h
    · rename_i tag res heq
      split_ifs at h with htag
      rw [heq, htag]
      cases h
      rfl
    · split_ifs at h
    · cases h
  refine ⟨hreply, ?_⟩
  have := hwf (.uint16_t p) (by rw [hreply]; simp)
  simpa [message_element.well_formed] using this

/-- C9, witness: the amended statement at the reply `(ok, 4321)`. -/
theorem publish_impl_returned_witness :
    (fun _ => [.atom_value ok_atom, .uint16_t 4321] : message → message)
        (publish_request ⟨1⟩ 0 none false) = [.atom_value ok_atom, .uint16_t 4321] ∧
      4321 < 2 ^ 16 :=
  publish_impl_returned (fun _ => [.atom_value ok_atom, .uint16_t 4321]) ⟨1⟩ 0 none false
    4321 (by decide) (by decide)

end io
end caf

/-! ## Tuple views -/

namespace cppa

/-- C7: a view constructed from a store and a valid index mapping `m` (length
`n`, every entry below the size of the store) exists, and for every logical
position `k < n` its `get<k>()` is the slot `store.at(m[k])`, which holds a
value. -/
theorem tuple_view_get {α : Type} (n : Nat) (hn : 0 < n) (vals : abstract_tuple α)
    (m : List Nat) (hlen : m.length = n) (hrange : ∀ i ∈ m, i < vals.size) :
    ∃ view, tuple_view.construct n hn vals m = some view ∧
      ∀ k : Fin n, ∃ i, m[k.val]? = some i ∧ view.get k = vals.at i ∧
        (view.get k).isSome = true := by
  refine ⟨{ m_vals := { m_decorated := vals, m_mappings := m }, size_pos := hn }, ?_, ?_⟩
  · have hc : m.length = n ∧ ∀ i ∈ m, i < vals.size := ⟨hlen, hrange⟩
    simp only [tuple_view.construct, decorated_tuple.construct, if_pos hc, Option.map_some']
  · intro k
    have hk : k.val < m.length := by rw [hlen]; exact k.isLt
    have hmem : m[k.val] ∈ m := List.getElem_mem hk
    have hlt : m[k.val] < vals.size := hrange _ hmem
    have hget : tuple_view.get
        ({ m_vals := { m_decorated := vals, m_mappings := m }, size_pos := hn } :
          tuple_view α n) k = vals.at m[k.val] := by
      simp [tuple_view.get, decorated_tuple.at, List.getElem?_eq_getElem hk]
    refine ⟨m[k.val], List.getElem?_eq_getElem hk, hget, ?_⟩
    rw [hget]
    have hlt2 : m[k.val] < vals.slots.length := hlt
    simp [abstract_tuple.at, hlt, List.getElem?_eq_getElem hlt2]

/-- C7, witness: the store `(10, 20, 30)` viewed through the mapping `[2, 0]`. -/
theorem tuple_view_get_witness :
    ∃ view, tuple_view.construct 2 (by decide) (⟨[10, 20, 30]⟩ : abstract_tuple Nat) [2, 0]
        = some view ∧
      ∀ k : Fin 2, ∃ i, [2, 0][k.val]? = some i ∧
        view.get k = (⟨[10, 20, 30]⟩ : abstract_tuple Nat).at i ∧
        (view.get k).isSome = true :=
  tuple_view_get 2 (by decide) ⟨[10, 20, 30]⟩ [2, 0] rfl (by decide)

/-- C8: constructing a view from a mapping that contains an index not below
the size of the store, or whose length is not the number `n` of element
types, fails. -/
theorem tuple_view_construct_rejects {α : Type} (n : Nat) (hn : 0 < n)
    (vals : abstract_tuple α) (m : List Nat)
    (h : (∃ i ∈ m, vals.size ≤ i) ∨ m.length ≠ n) :
    tuple_view.construct n hn vals m = none := by
  have hcond : ¬ (m.length = n ∧ ∀ i ∈ m, i < vals.size) := by
    rintro ⟨hlen, hrange⟩
    rcases h with ⟨i, hi, hle⟩ | hne
    · exact absurd (hrange i hi) (Nat.not_lt.mpr hle)
    · exact hne hlen
  simp [tuple_view.construct, decorated_tuple.construct, hcond]

/-- C8, witness: the mapping `[0, 3]` over the three-slot store `(10, 20, 30)`
is rejected. -/
theorem tuple_view_construct_rejects_witness :
    tuple_view.construct 2 (by decide) (⟨[10, 20, 30]⟩ : abstract_tuple Nat) [0, 3] = none :=
  tuple_view_construct_rejects 2 (by decide) ⟨[10, 20, 30]⟩ [0, 3]
    (Or.inl ⟨3, by decide, by decide⟩)

/-- C10: a view constructed over a store with a valid mapping reports the
size of the store as its `size()`, also when the mapping reorders or is
shorter than the store. -/
theorem tuple_view_size {α : Type} (n : Nat) (hn : 0 < n) (vals : abstract_tuple α)
    (m : List Nat) (view : tuple_view α n)
    (h : tuple_view.construct n hn vals m = some view) :
    view.size = vals.size := by
  simp only [tuple_view.construct, decorated_tuple.construct] at h
  split_ifs at h with hc
  · simp only [Option.map_some', Option.some.injEq] at h
    subst h
    rfl
  · simp at h

/-- C10, witness: the two-element view `[2, 0]` over the three-slot store
`(10, 20, 30)` has size 3. -/
theorem tuple_view_size_witness :
    (tuple_view.construct 2 (by decide) (⟨[10, 20, 30]⟩ : abstract_tuple Nat) [2, 0]).map
        tuple_view.size = some 3 ∧
    tuple_view.size ({ m_vals := ⟨⟨[10, 20, 30]⟩, [2, 0]⟩, size_pos := by decide } :
      tuple_view Nat 2) = (⟨[10, 20, 30]⟩ : abstract_tuple Nat).size :=
  ⟨rfl, tuple_view_size 2 (by decide) ⟨[10, 20, 30]⟩ [2, 0] _ rfl⟩

end cppa

/-! ## The symbol encoder: collisions, bit layout, decoding table -/

namespace caf
namespace detail

theorem atom_val_default_split_last (text : List Int) (h : nul_free text) (k : Nat)
    (hk : k ≤ text.length) :
    atom_val_default text
      = (atom_val_default (text.take (text.length - k)) * 64 ^ k
          + digits_value (text.drop (text.length - k))) % 2 ^ 64 := by
  have hnf : nul_free (text.take (text.length - k) ++ text.drop (text.length - k)) := by
    rw [List.take_append_drop]; exact h
  obtain ⟨hp, hs⟩ := nul_free_append.mp hnf
  have hl : (text.drop (text.length - k)).length = k := by
    rw [List.length_drop]; omega
  have := atom_val_split _ _ hp hs
  rw [List.take_append_drop, hl] at this
  exact this

theorem next_interim_zero_of_not_valid {c : Int} (h : ¬ valid_char c) :
    next_interim 0 c = 0 := by
  rw [next_interim_eq, encode_eq_zero_of_not_valid h]
  norm_num

/-- C14: `atom_val` yields a 64-bit value for every text without `'\0'`
(nothing is rejected), and it is not injective: the texts " " and "!" differ,
consist of characters outside the alphabet only, and have the same value. -/
theorem atom_val_total_not_injective :
    (∀ text : List Int, nul_free text →
      ∃ v, atom_val_default text = v ∧ v < 2 ^ 64) ∧
    (∃ s t : List Int, s ≠ t ∧ nul_free s ∧ nul_free t ∧
      (∀ c ∈ s, ¬ valid_char c) ∧ (∀ c ∈ t, ¬ valid_char c) ∧
      atom_val_default s = atom_val_default t) := by
  refine ⟨fun text _ => ⟨_, rfl, atom_val_lt text 0 (by norm_num)⟩, ?_⟩
  exact ⟨c_str " ", c_str "!", by decide, by decide, by decide, by decide, by decide,
    by decide⟩

/-- C15: `atom_val` of the empty text, with the default initial value, is 0. -/
theorem atom_val_empty : atom_val_default (c_str "") = 0 ∧ atom_val_default [] = 0 :=
  ⟨rfl, rfl⟩

/-- C16: the protocol tags differ, `atom_val("ok") = 3376` and
`atom_val("error") = 719289655`, and the value depends on the text only: equal
texts have equal values. -/
theorem atom_val_ok_error :
    atom_val_default (c_str "ok") ≠ atom_val_default (c_str "error") ∧
    atom_val_default (c_str "ok") = 3376 ∧
    atom_val_default (c_str "error") = 719289655 ∧
    (∀ s t : List Int, s = t → atom_val_default s = atom_val_default t) := by
  refine ⟨by decide, by decide, by decide, ?_⟩
  intro s t hst
  rw [hst]

end detail
end caf

namespace caf
namespace detail

theorem decoding_table_entries :
    ∀ j : Fin 64, 1 ≤ j.val →
      decoding_table[j.val]? = some (decoding_table.getD j.val 0) ∧
      valid_char (decoding_table.getD j.val 0) ∧
      encode (decoding_table.getD j.val 0) = j.val := by
  decide

/-- C17: for a text without `'\0'` that is longer than 10 characters, with
`u` its last 10 characters and `c` the character in front of `u`,
`atom_val(text) = ((encode(c) mod 16) << 60) | atom_val(u)`: the low 60 bits
encode the last 10 characters, the top 4 bits are the low 4 bits of the code
of `c`, and no earlier character has any effect. -/
theorem atom_val_bit_layout (text : List Int) (h : nul_free text)
    (hlen : 10 < text.length) (c : Int) (hc : text[text.length - 11]? = some c) :
    atom_val_default text
      = ((encode c % 16) <<< 60) ||| atom_val_default (text.drop (text.length - 10)) := by
  have hidx : text.length - 11 < text.length := by omega
  have hdrop : text.drop (text.length - 11) = c :: text.drop (text.length - 10) := by
    rw [List.drop_eq_getElem_cons hidx]
    have hget : text[text.length - 11] = c := by
      rw [List.getElem?_eq_getElem hidx] at hc
      exact Option.some.inj hc
    have hsucc : text.length - 11 + 1 = text.length - 10 := by omega
    rw [hget, hsucc]
  have hl : (text.drop (text.length - 10)).length = 10 := by
    rw [List.length_drop]; omega
  have hu : nul_free (text.drop (text.length - 10)) :=
    fun d hd => h d (List.mem_of_mem_drop hd)
  have hd := digits_value_lt (text.drop (text.length - 10))
  have he := encode_lt c
  have h11 := atom_val_default_split_last text h 11 (by omega)
  rw [hdrop] at h11
  simp only [digits_value, hl] at h11
  rw [h11, atom_val_default_short _ hu (le_of_eq hl), Nat.shiftLeft_eq,
    Nat.mul_comm (encode c % 16) (2 ^ 60)]
  rw [hl] at hd
  rw [← Nat.mul_add_lt_is_or (by norm_num at hd ⊢; exact hd) (encode c % 16)]
  norm_num at hd ⊢
  omega

/-- C17, witness: the layout at the 12-character text "Z1abcdefghij", where
the character in front of the last 10 is '1'. -/
theorem atom_val_bit_layout_witness :
    atom_val_default (c_str "Z1abcdefghij")
      = ((encode 49 % 16) <<< 60) |||
        atom_val_default ((c_str "Z1abcdefghij").drop ((c_str "Z1abcdefghij").length - 10)) :=
  atom_val_bit_layout (c_str "Z1abcdefghij") (by decide) (by decide) 49 (by decide)

set_option maxRecDepth 8000 in
/-- C18: the decoding table inverts the character code. For every index `i`
in 0..63, `encode(decoding_table[i]) = i`; for every character `c` of the
alphabet `[0-9A-Z_a-z]`, `decoding_table[encode(c)] = c` and `encode(c)` lies
in 1..63; every code is below 64, and every value in 1..63 is the code of a
character of the alphabet. -/
theorem decoding_table_inverse :
    decoding_table.length = 64 ∧
    (∀ i : Fin 64, (decoding_table[i.val]?).map encode = some i.val) ∧
    (∀ c : Int, valid_char c →
      decoding_table[encode c]? = some c ∧ 1 ≤ encode c ∧ encode c ≤ 63) ∧
    (∀ c : Int, encode c < 64) ∧
    (∀ j : Fin 64, 1 ≤ j.val → ∃ c : Int, valid_char c ∧ encode c = j.val) := by
  refine ⟨by decide, by decide, ?_, encode_lt, ?_⟩
  · intro c hc
    have hlt := encode_lt c
    have hpos := encode_pos_of_valid hc
    obtain ⟨h1, h2, h3⟩ := decoding_table_entries ⟨encode c, hlt⟩ hpos
    have hcd : c = decoding_table.getD (encode c) 0 :=
      encode_inj_of_valid h2 h3.symm
    refine ⟨?_, hpos, by omega⟩
    have h1' : decoding_table[encode c]? = some (decoding_table.getD (encode c) 0) := h1
    rw [h1', ← hcd]
  · intro j hj
    obtain ⟨_, h2, h3⟩ := decoding_table_entries j hj
    exact ⟨_, h2, h3⟩

/-- C19: a leading character that is neither `'\0'` nor in the alphabet
`[0-9A-Z_a-z]` does not change the value, `atom_val(c s) = atom_val(s)`; so
the distinct texts " ok" and "ok", both shorter than 10 characters, have the
same value. -/
theorem atom_val_leading_invalid (s : List Int) (c : Int) (hc0 : c ≠ 0)
    (hc : ¬ valid_char c) :
    atom_val_default (c :: s) = atom_val_default s ∧
    (c_str " ok" ≠ c_str "ok" ∧ (c_str " ok").length ≤ 10 ∧
      atom_val_default (c_str " ok") = atom_val_default (c_str "ok")) := by
  refine ⟨?_, by decide, by decide, by decide⟩
  simp only [atom_val_default, atom_val, hc0, if_false]
  rw [next_interim_zero_of_not_valid hc]

/-- C19, witness: a leading '-' in front of "put". -/
theorem atom_val_leading_invalid_witness :
    atom_val_default (45 :: c_str "put") = atom_val_default (c_str "put") ∧
    (c_str " ok" ≠ c_str "ok" ∧ (c_str " ok").length ≤ 10 ∧
      atom_val_default (c_str " ok") = atom_val_default (c_str "ok")) :=
  atom_val_leading_invalid (c_str "put") 45 (by decide) (by decide)

end detail
end caf


/-! ## The publish request -/

namespace caf
namespace io

/-- C12: `publish_impl(whom, port, in, reuse_addr)` sends exactly one request
to the coordinator, the tuple `(put, whom->address(), port, bind, reuse_addr)`
where `bind` is the text of `in`, or the empty string when `in` is null; so a
null and an empty `in` give the same request. -/
theorem publish_impl_request :
    (∀ (mm : message → message) (whom : abstract_actor) (port : Nat)
        (in_ : Option String) (reuse_addr : Bool),
      (publish_impl mm whom port in_ reuse_addr).sent
        = [[.atom_value put_atom, .actor_addr whom.address, .uint16_t port,
            .string (in_.getD ""), .bool reuse_addr]]) ∧
    (∀ (mm : message → message) (whom : abstract_actor) (port : Nat) (reuse_addr : Bool),
      (publish_impl mm whom port none reuse_addr).sent
        = (publish_impl mm whom port (some "") reuse_addr).sent) := by
  refine ⟨?_, ?_⟩
  · intro mm whom port in_ reuse_addr
    cases in_ <;> rfl
  · intro mm whom port reuse_addr
    rfl

end io
end caf

/-! ## Comparison of tuples and views -/

namespace cppa

/-- C11: in each of the three combinations view/view, tuple/view and
view/tuple, whatever the element types and their number on either side,
`a != b` holds exactly when `a == b` does not. -/
theorem operator_ne_iff_not_eq {α β : Type} {n m : Nat} (cmp : α → β → Bool)
    (a : tuple_view α n) (b : tuple_view β m) (t : tuple α) (u : tuple β) :
    (operator_ne_view_view cmp a b = true ↔ ¬ operator_eq_view_view cmp a b = true) ∧
    (operator_ne_tuple_view cmp t b = true ↔ ¬ operator_eq_tuple_view cmp t b = true) ∧
    (operator_ne_view_tuple cmp a u = true ↔ ¬ operator_eq_view_tuple cmp a u = true) := by
  simp [operator_ne_view_view, operator_ne_tuple_view, operator_ne_view_tuple]

end cppa

/-! ## Writes through a shared store -/

namespace cppa

theorem shared_view.deref_eq_some {α : Type} {n : Nat} (h : store_heap α)
    (v : shared_view n) (view : tuple_view α n) (hd : v.deref h = some view) :
    ∃ t, h.stores[v.vals]? = some t ∧ v.mappings.length = n ∧
      (∀ i ∈ v.mappings, i < t.size) ∧
      view = { m_vals := { m_decorated := t, m_mappings := v.mappings },
               size_pos := v.size_pos } := by
  unfold shared_view.deref at hd
  split at hd
  · rename_i t ht
    simp only [tuple_view.construct, decorated_tuple.construct] at hd
    split_ifs at hd with hc
    · simp only [Option.map_some', Option.some.injEq] at hd
      exact ⟨t, ht, hc.1, hc.2, hd.symm⟩
    · simp at hd
  · simp at hd

theorem shared_view.deref_of_valid {α : Type} {n : Nat} (h : store_heap α)
    (v : shared_view n) (t : abstract_tuple α) (ht : h.stores[v.vals]? = some t)
    (hlen : v.mappings.length = n) (hrange : ∀ i ∈ v.mappings, i < t.size) :
    v.deref h = some { m_vals := { m_decorated := t, m_mappings := v.mappings },
                       size_pos := v.size_pos } := by
  have hc : v.mappings.length = n ∧ ∀ i ∈ v.mappings, i < t.size := ⟨hlen, hrange⟩
  simp only [shared_view.deref, ht, tuple_view.construct, decorated_tuple.construct,
    if_pos hc, Option.map_some']

theorem shared_view.get_ref_assign_eq_some {α : Type} {n : Nat} (h h2 : store_heap α)
    (v : shared_view n) (k : Fin n) (x : α)
    (hwrite : v.get_ref_assign h k x = some h2) :
    ∃ t i, h.stores[v.vals]? = some t ∧ v.mappings.length = n ∧
      (∀ i ∈ v.mappings, i < t.size) ∧ v.mappings[k.val]? = some i ∧ i < t.size ∧
      h2 = { stores := h.stores.set v.vals { slots := t.slots.set i x } } := by
  unfold shared_view.get_ref_assign at hwrite
  cases hd : v.deref h with
  | none => simp [hd] at hwrite
  | some view =>
    obtain ⟨t, ht, hlen, hrange, hview⟩ := shared_view.deref_eq_some h v view hd
    subst hview
    simp only [hd, Option.some_bind, tuple_view.get_ref_assign,
      decorated_tuple.mutable_at_assign] at hwrite
    cases hm : v.mappings[k.val]? with
    | none => simp [hm] at hwrite
    | some i =>
      have hi : i < t.size := hrange i (List.getElem?_mem hm)
      simp only [hm, abstract_tuple.mutable_at_assign, if_pos hi, Option.map_some',
        Option.some.injEq] at hwrite
      exact ⟨t, i, ht, hlen, hrange, rfl, hi, hwrite.symm⟩

theorem shared_view.get_after_write {α : Type} {n m : Nat} (h h2 : store_heap α)
    (v : shared_view n) (w : shared_view m) (k : Fin n) (j : Fin m) (x : α)
    (hsame : w.vals = v.vals)
    (hslot : w.mappings[j.val]? = v.mappings[k.val]?)
    (hw : (w.deref h).isSome = true)
    (hwrite : v.get_ref_assign h k x = some h2) :
    w.get h2 j = some x := by
  obtain ⟨t, i, ht, _, _, hk, hi, hh2⟩ :=
    shared_view.get_ref_assign_eq_some h h2 v k x hwrite
  obtain ⟨view, hview⟩ := Option.isSome_iff_exists.mp hw
  obtain ⟨t2, ht2, hwlen, hwrange, _⟩ := shared_view.deref_eq_some h w view hview
  rw [hsame, ht] at ht2
  have htt : t = t2 := Option.some.inj ht2
  subst htt
  have hvlt : v.vals < h.stores.length := (List.getElem?_eq_some_iff.mp ht).1
  have hstore : h2.stores[w.vals]? = some { slots := t.slots.set i x } := by
    rw [hh2, hsame]
    simp [hvlt]
  have hsize : (abstract_tuple.size ({ slots := t.slots.set i x } : abstract_tuple α))
      = t.size := by
    simp [abstract_tuple.size]
  have hderef := shared_view.deref_of_valid h2 w _ hstore hwlen
    (fun a ha => by rw [hsize]; exact hwrange a ha)
  have hi2 : i < t.slots.length := hi
  simp only [shared_view.get, hderef, Option.some_bind, tuple_view.get,
    decorated_tuple.at, hslot, hk, abstract_tuple.at, hsize, if_pos hi]
  simp [hi2]

theorem shared_view.heap_after_write {α : Type} {n : Nat} (h h2 : store_heap α)
    (v : shared_view n) (k : Fin n) (x : α)
    (hwrite : v.get_ref_assign h k x = some h2) :
    (v.copy.deref h).isSome = true ∧ h2.stores.length = h.stores.length ∧
      (∀ p, p ≠ v.vals → h2.stores[p]? = h.stores[p]?) := by
  obtain ⟨t, i, ht, hlen, hrange, _, _, hh2⟩ :=
    shared_view.get_ref_assign_eq_some h h2 v k x hwrite
  refine ⟨?_, ?_, ?_⟩
  · have := shared_view.deref_of_valid h v.copy t ht hlen hrange
    rw [this]
    rfl
  · rw [hh2]
    simp
  · intro p hp
    rw [hh2]
    simp [List.getElem?_set, Ne.symm hp]

/-- C13: when two views share a store (the same handle) and position `j` of
the one projects the physical slot that position `k` of the other projects, a
value written through `get_ref<k>()` is what `get<j>()` of the other view
returns afterwards, and likewise `get<k>()` of a copy of the writing view; the
write adds no store to the heap and leaves every other store as it was. -/
theorem get_ref_write_visible {α : Type} {n m : Nat} (h h2 : store_heap α)
    (v : shared_view n) (w : shared_view m) (k : Fin n) (j : Fin m) (x : α)
    (hsame : w.vals = v.vals)
    (hslot : w.mappings[j.val]? = v.mappings[k.val]?)
    (hw : (w.deref h).isSome = true)
    (hwrite : v.get_ref_assign h k x = some h2) :
    w.get h2 j = some x ∧ v.copy.get h2 k = some x ∧
      h2.stores.length = h.stores.length ∧
      (∀ p, p ≠ v.vals → h2.stores[p]? = h.stores[p]?) := by
  obtain ⟨hv, hlen, hother⟩ := shared_view.heap_after_write h h2 v k x hwrite
  exact ⟨shared_view.get_after_write h h2 v w k j x hsame hslot hw hwrite,
    shared_view.get_after_write h h2 v v.copy k k x rfl rfl hv hwrite, hlen, hother⟩

/-- C13, witness: the store `(10, 20, 30)` under handle 0, shared by the view
with mapping `[2, 0]` and the view with mapping `[1, 2, 0]`; 99 written through
`get_ref<0>()` of the first is read by `get<1>()` of the second and by
`get<0>()` of a copy of the first. -/
theorem get_ref_write_visible_witness :
    shared_view.get (⟨[⟨[10, 20, 99]⟩]⟩ : store_heap Nat)
        (⟨0, [1, 2, 0], by decide⟩ : shared_view 3) ⟨1, by decide⟩ = some 99 ∧
      shared_view.get (⟨[⟨[10, 20, 99]⟩]⟩ : store_heap Nat)
        (shared_view.copy (⟨0, [2, 0], by decide⟩ : shared_view 2)) ⟨0, by decide⟩
          = some 99 ∧
      (⟨[⟨[10, 20, 99]⟩]⟩ : store_heap Nat).stores.length
        = (⟨[⟨[10, 20, 30]⟩]⟩ : store_heap Nat).stores.length ∧
      (∀ p, p ≠ (⟨0, [2, 0], by decide⟩ : shared_view 2).vals →
        (⟨[⟨[10, 20, 99]⟩]⟩ : store_heap Nat).stores[p]?
          = (⟨[⟨[10, 20, 30]⟩]⟩ : store_heap Nat).stores[p]?) :=
  get_ref_write_visible ⟨[⟨[10, 20, 30]⟩]⟩ ⟨[⟨[10, 20, 99]⟩]⟩ ⟨0, [2, 0], by decide⟩
    ⟨0, [1, 2, 0], by decide⟩ ⟨0, by decide⟩ ⟨1, by decide⟩ 99 rfl rfl rfl rfl

end cppa
